import Mathlib

/-!
Verification of the jisa repository: a shallow embedding of the two sentiment
pipeline scripts, `src/backend/exploration/jira_sentiment.py` (namespace
`JiraSentiment`) and `src/backend/exploration/sentiment_exec_summary.py`
(namespace `ExecSummary`), together with theorems settling the specification
claims about them.

Modelling conventions:
* Python floats are modelled as exact rationals (`Rat`); the claims concern
  the arithmetic relationships, not IEEE rounding.
* Python `datetime` values are modelled by microsecond counts: a naive
  datetime is the microsecond count of its displayed fields since the epoch,
  and an aware datetime additionally carries its UTC offset in microseconds.
  Comparison of naive datetimes in Python is field-lexicographic, which
  agrees with comparison of the microsecond counts.
* Python sets of strings are modelled by lists; the code only tests
  membership on them, so iteration order never matters.
* Network calls are modelled as explicit function parameters (the response
  the service would give), and fallible calls return `Except Unit`.
-/

/-- Lowercasing of a Python string (`str.lower`), modelled per character. -/
def pyLower (s : String) : String := ⟨s.data.map Char.toLower⟩

/-- Python `str.strip()`: remove whitespace from both ends. -/
def pyStrip (s : String) : String :=
  ⟨(((s.data.dropWhile Char.isWhitespace).reverse).dropWhile Char.isWhitespace).reverse⟩

/-- `startsWithChars pat l` is true when `pat` is an initial segment of `l`. -/
def startsWithChars : List Char → List Char → Bool
  | [], _ => true
  | _ :: _, [] => false
  | p :: ps, h :: hs => p == h && startsWithChars ps hs

/-- `hasSubChars pat l` is true when `pat` occurs contiguously inside `l`. -/
def hasSubChars (pat : List Char) : List Char → Bool
  | [] => startsWithChars pat []
  | h :: hs => startsWithChars pat (h :: hs) || hasSubChars pat hs

/-- Python substring containment `pat in hay`. -/
def strContains (hay pat : String) : Bool := hasSubChars pat.data hay.data

/-- Truthiness of `s.strip()` in Python: `s` contains a non-whitespace
character. -/
def pyHasContent (s : String) : Bool := s.data.any (fun c => !c.isWhitespace)

/-- A raw comment map as returned by the tracker: the fields the two scripts
read (`created`, `createdDate`, `body`), each possibly absent. -/
structure RawComment where
  created : Option String
  createdDate : Option String
  body : Option String
deriving DecidableEq, Repr

/-- A Python `datetime` as used in `jira_sentiment.py`: the naive field value
in microseconds since the epoch plus an optional UTC offset (`tzinfo`),
also in microseconds. -/
structure PyAware where
  naiveUs : Int
  tzOffsetUs : Option Int
deriving DecidableEq, Repr

/-- The instant denoted by an aware datetime: naive value minus UTC offset.
Aware datetimes compare by this value in Python. -/
def pyInstant (d : PyAware) : Int := d.naiveUs - d.tzOffsetUs.getD 0

/-- Microseconds in one day (`timedelta(days=1)`). -/
def usPerDay : Int := 86400000000

/-- A field definition from the tracker field listing: the `id` entry
(possibly absent, as `f.get("id")`) and the `name` entry. -/
structure FieldDef where
  id : Option String
  name : String
deriving DecidableEq, Repr

namespace JiraSentiment

/-- First pass of `find_field_id`: scan the fields in order and return
`f.get("id")` of the first field whose lowercased name is in the candidate
set (`target_lower`). `some r` means the Python loop returned `r`. -/
def exactPass (targetsLower : List String) : List FieldDef → Option (Option String)
  | [] => none
  | f :: rest =>
    if targetsLower.contains (pyLower f.name) then some f.id
    else exactPass targetsLower rest

/-- Second pass of `find_field_id` (the fuzzy-contains fallback): scan the
fields in order and return `f.get("id")` of the first field whose lowercased
name contains some candidate as a substring. The Python inner loop iterates
the candidate set only to test existence, so set iteration order is
irrelevant to the returned field. -/
def fuzzyPass (targetsLower : List String) : List FieldDef → Option (Option String)
  | [] => none
  | f :: rest =>
    if targetsLower.any (fun t => strContains (pyLower f.name) t) then some f.id
    else fuzzyPass targetsLower rest

/-- `find_field_id(fields, target_names)` from `jira_sentiment.py`:
case-insensitive exact match scanning the fields in order, then a
substring-containment fallback, returning `None` when nothing matches. -/
def find_field_id (fields : List FieldDef) (target_names : List String) : Option String :=
  let targetsLower := target_names.map pyLower
  match exactPass targetsLower fields with
  | some r => r
  | none =>
    match fuzzyPass targetsLower fields with
    | some r => r
    | none => none

/-- `label_from_compound` from `jira_sentiment.py`: strict thresholds at
0.05 and -0.05. -/
def label_from_compound (compound : Rat) : String :=
  if compound > 0.05 then "positive"
  else if compound < -0.05 then "negative"
  else "neutral"

/-- `analyze_issue_sentiment` from `jira_sentiment.py`, with the external
polarity scorer abstracted as `scorer` (its `compound` output). The score
and weight lists of the source are kept as one list of zipped pairs; the
status summary contributes `(score, 0.6)` when truthy and non-blank, the
comments text `(score, 0.4)`. Returns the weighted average, with the
source's `sum(weights) or 1.0` guard on the denominator. -/
def analyze_issue_sentiment (scorer : String → Rat) (status_summary : Option String)
    (comments_text : String) : Rat :=
  let statusPairs : List (Rat × Rat) :=
    match status_summary with
    | some s => if s ≠ "" ∧ pyHasContent s then [(scorer s, 0.6)] else []
    | none => []
  let pairs : List (Rat × Rat) :=
    statusPairs ++
      (if comments_text ≠ "" ∧ pyHasContent comments_text
       then [(scorer comments_text, 0.4)] else [])
  if pairs = [] then 0
  else
    let wsum := (pairs.map (fun p => p.2)).sum
    ((pairs.map (fun p => p.1 * p.2)).sum) / (if wsum = 0 then 1 else wsum)

/-- The risk-marker keyword list of `extract_signals`. -/
def risk_markers : List String :=
  ["risk", "blocked", "blocker", "delay", "slip", "slipped", "regression",
   "dependency", "dependent", "qa issue", "qe issue", "concern", "problem", "issue"]

/-- The positive-marker keyword list of `extract_signals`. -/
def positive_markers : List String :=
  ["landed", "merged", "shipped", "completed", "done", "progress", "on track",
   "green", "good", "improved", "started", "work has started"]

/-- The two lexical flags returned by `extract_signals`. -/
structure Signals where
  risk_flag : Bool
  positive_flag : Bool
deriving DecidableEq, Repr

/-- `extract_signals(text)` from `jira_sentiment.py`: lowercase the text and
flag whether any risk marker, and any positive marker, occurs in it. -/
def extract_signals (text : String) : Signals :=
  let t := pyLower text
  ⟨risk_markers.any (fun m => strContains t m),
   positive_markers.any (fun m => strContains t m)⟩

/-- The `created_raw = c.get("created") or c.get("createdDate")` expression of
`gather_data`, with Python falsiness: an absent or empty `created` falls back
to `createdDate`; an absent or empty result is the empty string (which the
loop then skips). -/
def createdRawOf (c : RawComment) : String :=
  match c.created with
  | some s => if s = "" then c.createdDate.getD "" else s
  | none => c.createdDate.getD ""

/-- The comment-windowing loop of `gather_data` in `jira_sentiment.py`, with
the `dateutil` ISO parser abstracted as `parse`. For each comment in
retrieval order: skip it when `created_raw` is falsy or fails to parse;
otherwise default a missing `tzinfo` to UTC and keep the comment body
(`str(c.get("body") or "")`) when the timestamp is on or after `cutoff`. -/
def windowLoop (parse : String → Option PyAware) (cutoff : Int) :
    List RawComment → List String
  | [] => []
  | c :: rest =>
    let raw := createdRawOf c
    if raw = "" then windowLoop parse cutoff rest
    else
      match parse raw with
      | none => windowLoop parse cutoff rest
      | some d =>
        let d' := if d.tzOffsetUs = none then PyAware.mk d.naiveUs (some 0) else d
        if cutoff ≤ pyInstant d' then c.body.getD "" :: windowLoop parse cutoff rest
        else windowLoop parse cutoff rest

/-- The `comments_text` value `gather_data` stores for one issue:
the windowed bodies joined with newlines (joining the empty list gives the
empty string, as in the source's conditional). The cutoff is
`now - timedelta(days=days)`. -/
def comments_text_of (parse : String → Option PyAware) (now : Int) (days : Int)
    (comments : List RawComment) : String :=
  String.intercalate "\n" (windowLoop parse (now - days * usPerDay) comments)

/-- The per-issue narrative record `gather_data` stores in `details`. -/
structure Details where
  status_summary_text : String
  comments_text : String
deriving DecidableEq, Repr

/-- The per-issue loop of `gather_data`: for each key, fetch the comments
(`try ... except` turns any failure into the empty list), window them, and
record the status-summary text (extraction from the already-fetched issue
objects is abstracted as the pure function `statusTextOf`) together with the
joined comments text. -/
def gatherDetailsLoop (fetchComments : String → Except Unit (List RawComment))
    (parse : String → Option PyAware) (now : Int) (days : Int)
    (statusTextOf : String → String) : List String → List (String × Details)
  | [] => []
  | k :: rest =>
    let comments : List RawComment :=
      match fetchComments k with
      | .error _ => []
      | .ok cs => cs
    (k, ⟨statusTextOf k, String.intercalate "\n" (windowLoop parse (now - days * usPerDay) comments)⟩)
      :: gatherDetailsLoop fetchComments parse now days statusTextOf rest

/-- One page of the comment-listing endpoint as read by
`JiraClient.get_comments`: the `comments` and `value` arrays and the echoed
`maxResults` and `total` numbers (`data.get(..., 0)` defaults applied). -/
structure CommentsPage (α : Type) where
  comments : List α
  value : List α
  maxResults : Int
  total : Int
deriving DecidableEq, Repr

/-- Loop state of `JiraClient.get_comments`: collected comments and the
`start_at` cursor. -/
structure GetCommentsState (α : Type) where
  comments : List α
  startAt : Int
deriving DecidableEq, Repr

/-- One iteration of the `while True` loop of `JiraClient.get_comments`:
request a page with `maxResults = min(100, limit - start_at)`, take the
`comments` array (falling back to `value` when it is empty), extend the
collection, and stop when `len(comments) >= limit` or
`start_at + data.maxResults >= data.total`; otherwise advance `start_at` by
the echoed `maxResults`. `env startAt maxResults` is the page the service
returns for that request. -/
def get_comments_step (env : Int → Int → CommentsPage α) (limit : Int)
    (st : GetCommentsState α) : Sum (List α) (GetCommentsState α) :=
  let data := env st.startAt (min 100 (limit - st.startAt))
  let values := if data.comments.isEmpty then data.value else data.comments
  let comments := st.comments ++ values
  if limit ≤ (comments.length : Int) ∨ data.total ≤ st.startAt + data.maxResults
  then Sum.inl comments
  else Sum.inr ⟨comments, st.startAt + data.maxResults⟩

/-- The loop of `JiraClient.get_comments`, run with explicit fuel; `none`
means the loop had not finished after `fuel` iterations. -/
def get_comments_run (env : Int → Int → CommentsPage α) (limit : Int) :
    Nat → GetCommentsState α → Option (List α)
  | 0, _ => none
  | fuel + 1, st =>
    match get_comments_step env limit st with
    | .inl r => some r
    | .inr st' => get_comments_run env limit fuel st'

end JiraSentiment

/-- A degenerate but service-shaped response family for
`JiraClient.get_comments`: every page is empty while `total = 500` reports
that more results are available (`maxResults` echoes the request). -/
def stuckPages : Int → Int → JiraSentiment.CommentsPage Nat :=
  fun _ m => ⟨[], [], m, 500⟩

namespace ExecSummary

/-- The fields of a naive `datetime` value. -/
structure NaiveDt where
  year : Nat
  month : Nat
  day : Nat
  hour : Nat
  minute : Nat
  second : Nat
  micro : Nat
deriving DecidableEq, Repr

/-- Gregorian leap-year rule, as validated by `datetime`. -/
def isLeap (y : Nat) : Bool := (y % 4 = 0 && y % 100 ≠ 0) || y % 400 = 0

/-- Number of days in a month, as validated by `datetime`. -/
def daysInMonth (y m : Nat) : Nat :=
  if m = 2 then (if isLeap y then 29 else 28)
  else if m = 4 ∨ m = 6 ∨ m = 9 ∨ m = 11 then 30
  else 31

/-- Field validation performed by the `datetime` constructor (year 1..9999,
calendar-valid month and day, in-range time fields). -/
def validDt (dt : NaiveDt) : Bool :=
  1 ≤ dt.year && dt.year ≤ 9999 && 1 ≤ dt.month && dt.month ≤ 12 &&
  1 ≤ dt.day && dt.day ≤ daysInMonth dt.year dt.month &&
  dt.hour ≤ 23 && dt.minute ≤ 59 && dt.second ≤ 59 && dt.micro ≤ 999999

/-- Days from 1970-01-01 to the given civil date (standard civil-from-days
conversion; the year is at least 1, so truncating division is exact floor
division here). -/
def daysFromCivil (dt : NaiveDt) : Int :=
  let y : Int := if dt.month ≤ 2 then (dt.year : Int) - 1 else (dt.year : Int)
  let era : Int := y / 400
  let yoe : Int := y - era * 400
  let mp : Nat := (dt.month + 9) % 12
  let doy : Int := ((153 * mp + 2) / 5 : Nat) + (dt.day : Int) - 1
  let doe : Int := yoe * 365 + yoe / 4 - yoe / 100 + doy
  era * 146097 + doe - 719468

/-- Microseconds since the epoch of a naive datetime. Python compares naive
datetimes field-lexicographically, which agrees with comparing these
counts. -/
def naiveToMicros (dt : NaiveDt) : Int :=
  daysFromCivil dt * usPerDay
    + ((dt.hour * 3600 + dt.minute * 60 + dt.second : Nat) : Int) * 1000000
    + (dt.micro : Int)

/-- Numeric value of a digit list (most significant first). -/
def digitsToNat (cs : List Char) : Nat :=
  cs.foldl (fun a c => a * 10 + (c.toNat - 48)) 0

/-- Two-character digit pair value. -/
def twoDigits (a b : Char) : Nat := digitsToNat [a, b]

/-- Range-check a parsed datetime. -/
def checkDt (dt : NaiveDt) : Option NaiveDt := if validDt dt then some dt else none

/-- The primary parse path of `filter_comments_last_days`:
`datetime.strptime(created_str[:23] + "+0000", "%Y-%m-%dT%H:%M:%S.%f+0000")`.
The string is truncated to its first 23 characters, so any timezone suffix is
discarded and the wall-clock fields are read as if they were UTC. Succeeds
when the truncated string has the fixed-width shape
`YYYY-MM-DDTHH:MM:SS.` followed by one to six fractional digits (the
tracker's timestamps are fixed-width, which is what this models) and the
fields pass `datetime` validation. -/
def strptimeTruncated (s : String) : Option NaiveDt :=
  match (s.take 23).data with
  | y1 :: y2 :: y3 :: y4 :: '-' :: m1 :: m2 :: '-' :: d1 :: d2 :: 'T' ::
      h1 :: h2 :: ':' :: mi1 :: mi2 :: ':' :: s1 :: s2 :: '.' :: frac =>
    if [y1, y2, y3, y4, m1, m2, d1, d2, h1, h2, mi1, mi2, s1, s2].all Char.isDigit
        && !frac.isEmpty && frac.length ≤ 6 && frac.all Char.isDigit then
      checkDt
        ⟨digitsToNat [y1, y2, y3, y4], twoDigits m1 m2, twoDigits d1 d2,
         twoDigits h1 h2, twoDigits mi1 mi2, twoDigits s1 s2,
         digitsToNat frac * 10 ^ (6 - frac.length)⟩
    else none
  | _ => none

/-- The `%z` timezone component: `Z`, `+HHMM`, `-HHMM`, `+HH:MM` or `-HH:MM`,
as a signed offset in microseconds. -/
def parseTzOffset : List Char → Option Int
  | ['Z'] => some 0
  | ['+', a, b, c, d] =>
    if [a, b, c, d].all Char.isDigit
    then some (((twoDigits a b * 3600 + twoDigits c d * 60 : Nat) : Int) * 1000000)
    else none
  | ['-', a, b, c, d] =>
    if [a, b, c, d].all Char.isDigit
    then some (-(((twoDigits a b * 3600 + twoDigits c d * 60 : Nat) : Int) * 1000000))
    else none
  | ['+', a, b, ':', c, d] =>
    if [a, b, c, d].all Char.isDigit
    then some (((twoDigits a b * 3600 + twoDigits c d * 60 : Nat) : Int) * 1000000)
    else none
  | ['-', a, b, ':', c, d] =>
    if [a, b, c, d].all Char.isDigit
    then some (-(((twoDigits a b * 3600 + twoDigits c d * 60 : Nat) : Int) * 1000000))
    else none
  | _ => none

/-- The fallback parse path of `filter_comments_last_days`:
`datetime.strptime(created_str, "%Y-%m-%dT%H:%M:%S.%f%z")` followed by
`.astimezone(dt.timezone.utc).replace(tzinfo=None)`, i.e. the UTC naive
microsecond count (wall-clock value minus the parsed offset). -/
def strptimeOffsetUTC (s : String) : Option Int :=
  match s.data with
  | y1 :: y2 :: y3 :: y4 :: '-' :: m1 :: m2 :: '-' :: d1 :: d2 :: 'T' ::
      h1 :: h2 :: ':' :: mi1 :: mi2 :: ':' :: s1 :: s2 :: '.' :: rest =>
    let frac := rest.takeWhile Char.isDigit
    let tz := rest.dropWhile Char.isDigit
    if [y1, y2, y3, y4, m1, m2, d1, d2, h1, h2, mi1, mi2, s1, s2].all Char.isDigit
        && !frac.isEmpty && frac.length ≤ 6 then
      match parseTzOffset tz with
      | some off =>
        match checkDt
            ⟨digitsToNat [y1, y2, y3, y4], twoDigits m1 m2, twoDigits d1 d2,
             twoDigits h1 h2, twoDigits mi1 mi2, twoDigits s1 s2,
             digitsToNat frac * 10 ^ (6 - frac.length)⟩ with
        | some dt => some (naiveToMicros dt - off)
        | none => none
      | none => none
    else none
  | _ => none

/-- The whole parse chain of `filter_comments_last_days` for one `created`
string, producing the naive UTC microsecond count the comparison uses:
first the truncate-to-23-characters path, then the `%z` fallback. -/
def parseCreatedExec (s : String) : Option Int :=
  match strptimeTruncated s with
  | some dt => some (naiveToMicros dt)
  | none => strptimeOffsetUTC s

/-- `filter_comments_last_days(comments, days)` from
`sentiment_exec_summary.py`. `now` is the ambient `datetime.utcnow()` value
as a microsecond count; the cutoff is `now - timedelta(days=days)`. A
comment is kept when its `created` string is present, truthy, parses, and
the parsed naive value is on or after the cutoff. -/
def filter_comments_last_days (now : Int) (comments : List RawComment) (days : Int) :
    List RawComment :=
  let cutoff := now - days * usPerDay
  comments.filter fun c =>
    match c.created with
    | none => false
    | some s =>
      if s = "" then false
      else
        match parseCreatedExec s with
        | none => false
        | some t => cutoff ≤ t

/-- `jira_search_fields(keyword, limit)` from `sentiment_exec_summary.py`,
with the field listing the service returns passed as `fields`: an empty
keyword takes the first `limit` fields; otherwise the fields whose lowercased
name contains the lowercased keyword, truncated to `limit`. -/
def jira_search_fields (fields : List FieldDef) (keyword : String) (limit : Nat) :
    List FieldDef :=
  if keyword = "" then fields.take limit
  else (fields.filter (fun f => strContains (pyLower f.name) (pyLower keyword))).take limit

/-- `find_field_id_by_name(name)` from `sentiment_exec_summary.py`: among
`jira_search_fields(name, limit=500)`, return `f.get("id")` of the first
field whose lowercased name equals the lowercased target; `None` otherwise.
There is no substring-containment fallback result. -/
def find_field_id_by_name (fields : List FieldDef) (name : String) : Option String :=
  match JiraSentiment.exactPass [pyLower name] (jira_search_fields fields name 500) with
  | some r => r
  | none => none

/-- `label_from_compound` from `sentiment_exec_summary.py`: inclusive
thresholds at 0.2 and -0.2. -/
def label_from_compound (compound : Rat) : String :=
  if compound ≥ 0.2 then "positive"
  else if compound ≤ -0.2 then "negative"
  else "neutral"

/-- `score_text(sia, text)` from `sentiment_exec_summary.py`, restricted to
the `compound` entry the callers read: blank text scores 0.0 without calling
the scorer; otherwise the external scorer's compound value. -/
def score_text (sia : String → Rat) (text : String) : Rat :=
  if !pyHasContent text then 0 else sia text

/-- The risk keyword list of `has_risk_keywords`. -/
def risk_keywords : List String :=
  ["slip", "slipped", "delay", "delayed", "blocked", "overdue", "push", "pushed",
   "won't meet", "risk"]

/-- `has_risk_keywords(text)` from `sentiment_exec_summary.py`. -/
def has_risk_keywords (text : String) : Bool :=
  risk_keywords.any (fun k => strContains (pyLower text) k)

/-- One iteration of the `while True` loop of `jira_get_all_comments`:
request a page with `maxResults = min(50, max_comments - len(results))`,
extend the results, and stop when the page is empty or
`len(results) >= max_comments`; otherwise advance `start_at` by the page
length. `env startAt maxResults` is the comment array the service returns
for that request. -/
def jgac_step (env : Int → Int → List α) (maxComments : Int) (st : List α × Int) :
    Sum (List α) (List α × Int) :=
  let page := env st.2 (min 50 (maxComments - (st.1.length : Int)))
  let results := st.1 ++ page
  if page.length = 0 ∨ maxComments ≤ (results.length : Int) then Sum.inl results
  else Sum.inr (results, st.2 + (page.length : Int))

/-- The loop of `jira_get_all_comments`, run with explicit fuel; `none`
means the loop had not finished after `fuel` iterations. -/
def jgac_run (env : Int → Int → List α) (maxComments : Int) :
    Nat → (List α × Int) → Option (List α)
  | 0, _ => none
  | fuel + 1, st =>
    match jgac_step env maxComments st with
    | .inl r => some r
    | .inr st' => jgac_run env maxComments fuel st'

/-- `jira_get_all_comments(key, max_comments)` from
`sentiment_exec_summary.py`: the pagination loop started at
`start_at = 0` with no results, given `max_comments + 1` iterations of fuel
(which the termination theorem shows is always enough). -/
def jira_get_all_comments (env : Int → Int → List α) (maxComments : Int) :
    Option (List α) :=
  jgac_run env maxComments (maxComments.toNat + 1) ([], 0)

/-- Loop state of `collect_in_progress_descendants`: the `seen` set (as the
list of its elements in insertion order), the frontier queue of
(key, depth) pairs, and the accumulated `all_keys` list. -/
structure BfsState where
  seen : List String
  frontier : List (String × Nat)
  all_keys : List String
deriving DecidableEq, Repr

/-- The inner `for issue in jira_search_jql(...)` loop of
`collect_in_progress_descendants`: each truthy key not yet seen is added to
`seen` and `all_keys` and enqueued at depth `depth1`. -/
def enqueueAll (st : BfsState) (depth1 : Nat) : List String → BfsState
  | [] => st
  | k :: ks =>
    if k ≠ "" ∧ k ∉ st.seen then
      enqueueAll ⟨st.seen ++ [k], st.frontier ++ [(k, depth1)], st.all_keys ++ [k]⟩ depth1 ks
    else enqueueAll st depth1 ks

/-- One iteration of the `while frontier` loop of
`collect_in_progress_descendants`: pop the front of the queue; if its depth
has reached `maxDepth`, continue; otherwise run the child query
(`search current` models `jira_search_jql` for the parent-link clause plus
the in-progress status filter) and enqueue the new keys at depth + 1.
`none` means the frontier was empty and the loop exits. -/
def bfsStep (search : String → List String) (maxDepth : Nat) (st : BfsState) :
    Option BfsState :=
  match st.frontier with
  | [] => none
  | (current, depth) :: rest =>
    let st' : BfsState := ⟨st.seen, rest, st.all_keys⟩
    if maxDepth ≤ depth then some st'
    else some (enqueueAll st' (depth + 1) (search current))

/-- The `while frontier` loop run with explicit fuel; when the fuel runs out
the current state is returned as is. -/
def bfsRun (search : String → List String) (maxDepth : Nat) :
    Nat → BfsState → BfsState
  | 0, st => st
  | fuel + 1, st =>
    match bfsStep search maxDepth st with
    | none => st
    | some st' => bfsRun search maxDepth fuel st'

/-- The keys reachable from `root` in at most `n` applications of `search`,
with duplicates removed: a finite universe containing every key the
traversal can ever enqueue, used to bound the loop. -/
def levelsUpTo (search : String → List String) (root : String) : Nat → List String
  | 0 => [root]
  | n + 1 =>
    let prev := levelsUpTo search root n
    (prev ++ prev.flatMap search).dedup

/-- Fuel that always suffices for the breadth-first loop: one more than the
number of distinct keys reachable within `maxDepth` steps. -/
def bfsFuel (search : String → List String) (root : String) (maxDepth : Nat) : Nat :=
  (levelsUpTo search root maxDepth).dedup.length + 1

/-- The initial state of `collect_in_progress_descendants`: `seen`,
`frontier` and `all_keys` all seeded with the root key. -/
def bfsInit (root : String) : BfsState := ⟨[root], [(root, 0)], [root]⟩

/-- The final loop state of `collect_in_progress_descendants(root_key,
parent_link_field, max_depth)`; `search` models the child query
`"{parent_link_field}" = current AND statuscategory in ("In Progress")`. -/
def collectFinal (search : String → List String) (root : String) (maxDepth : Nat) :
    BfsState :=
  bfsRun search maxDepth (bfsFuel search root maxDepth) (bfsInit root)

/-- The `all_keys` list returned by `collect_in_progress_descendants`. -/
def collect_in_progress_descendants (search : String → List String) (root : String)
    (maxDepth : Nat) : List String :=
  (collectFinal search root maxDepth).all_keys

/-- A custom-field value as `analyze_issue` normalizes it: either a plain
string or a structured object carrying a `value` property (a JSON string or
null). -/
inductive PyFieldVal
  | vstr (s : String)
  | vobj (value : Option String)
deriving DecidableEq, Repr

/-- Truthiness of a custom-field value: an empty string is falsy; an object
(non-empty dict) is truthy. -/
def fieldValTruthy : PyFieldVal → Bool
  | .vstr s => s ≠ ""
  | .vobj _ => true

/-- The `ss_text` / `lss_text` normalization of `analyze_issue`: when the
field id resolved (`hasField`) and the raw value is truthy, an object yields
`value or ""` and a plain string yields `str(val).strip()`; otherwise the
empty string. -/
def extractFieldText (hasField : Bool) (val : Option PyFieldVal) : String :=
  if hasField then
    match val with
    | some v =>
      if fieldValTruthy v then
        match v with
        | .vobj value => value.getD ""
        | .vstr s => pyStrip s
      else ""
    | none => ""
  else ""

/-- The issue fields `analyze_issue` reads from `jira_get_issue`: `summary`,
`status.name`, `priority.name`, `assignee.displayName`, and the two narrative
custom-field values. -/
structure ExecIssueFields where
  summary : Option String
  status : Option String
  priority : Option String
  assignee : Option String
  ssVal : Option PyFieldVal
  lssVal : Option PyFieldVal
deriving DecidableEq, Repr

/-- The tracker as `analyze_issue` sees it: the single-issue fetch and the
(paginated, here already collected) comment fetch, each of which can fail. -/
structure ExecEnv where
  getIssue : String → Except Unit ExecIssueFields
  getComments : String → Except Unit (List RawComment)

/-- The per-issue analysis record returned by `analyze_issue` (the entries
downstream code reads; the sentiment sub-map is flattened to its compound
values, label and risk flag). -/
structure ExecRow where
  key : String
  summary : Option String
  status : Option String
  priority : Option String
  assignee : String
  status_summary : Option String
  latest_status_summary : Option String
  recent_comments_count : Nat
  s_ss : Rat
  s_cmts : Rat
  s_all : Rat
  label : String
  risk_keywords : Bool
deriving DecidableEq, Repr

/-- `analyze_issue(key, field_status_summary, field_latest_status_summary,
days, sia)` from `sentiment_exec_summary.py`, with the network as `env`, the
scorer's compound output as `sia`, `datetime.utcnow()` as `now`, and the two
field-id arguments reduced to whether they resolved (they are only used as
lookup keys into the fetched issue). Any failing call makes the whole
analysis fail (there is no handler inside this function). -/
def analyze_issue (env : ExecEnv) (hasSS hasLSS : Bool) (days : Int)
    (sia : String → Rat) (now : Int) (key : String) : Except Unit ExecRow := do
  let f ← env.getIssue key
  let ss_text := extractFieldText hasSS f.ssVal
  let lss_text := extractFieldText hasLSS f.lssVal
  let comments ← env.getComments key
  let recent := filter_comments_last_days now comments days
  let comments_text := String.intercalate "\n" (recent.map (fun c => c.body.getD ""))
  let combined := pyStrip (String.intercalate "\n" [ss_text, lss_text, comments_text])
  let s_ss := score_text sia ss_text
  let s_cmts := score_text sia comments_text
  let s_all := score_text sia combined
  let risk := has_risk_keywords combined
  let label := label_from_compound s_all
  pure
    ⟨key, f.summary, f.status, f.priority, f.assignee.getD "Unassigned",
     (if ss_text = "" then none else some ss_text),
     (if lss_text = "" then none else some lss_text),
     recent.length, s_ss, s_cmts, s_all, label, risk⟩

/-- The per-key loop of `main` in `sentiment_exec_summary.py`: analyze each
key; a failure is caught (a warning is printed) and the loop continues with
the next key; a successful analysis is appended only when the key is the
root or the issue's status name is "In Progress". -/
def mainAnalysesLoop (analyze : String → Except Unit ExecRow) (rootKey : String) :
    List String → List ExecRow
  | [] => []
  | k :: rest =>
    match analyze k with
    | .error _ => mainAnalysesLoop analyze rootKey rest
    | .ok a =>
      if k = rootKey ∨ a.status = some "In Progress"
      then a :: mainAnalysesLoop analyze rootKey rest
      else mainAnalysesLoop analyze rootKey rest

/-- The number of "positive" labels among the analyses of
`build_exec_summary`. -/
def posCount (analyses : List ExecRow) : Nat :=
  (analyses.map (fun a => a.label)).count "positive"

/-- The number of "negative" labels among the analyses. -/
def negCount (analyses : List ExecRow) : Nat :=
  (analyses.map (fun a => a.label)).count "negative"

/-- The number of "neutral" labels among the analyses. -/
def neuCount (analyses : List ExecRow) : Nat :=
  (analyses.map (fun a => a.label)).count "neutral"

/-- The trend selection of `build_exec_summary`:
`"positive" if pos >= max(neg, neu) else ("neutral" if neu >= max(pos, neg)
else "mixed")`. -/
def execTrend (analyses : List ExecRow) : String :=
  let labels := analyses.map (fun a => a.label)
  let pos := labels.count "positive"
  let neg := labels.count "negative"
  let neu := labels.count "neutral"
  if pos ≥ max neg neu then "positive"
  else if neu ≥ max pos neg then "neutral"
  else "mixed"

end ExecSummary

/-- An issue record of the tracker database, as far as the traversal and
status filters read it: its key, the two relationship fields, the status
name and the status category. -/
structure Issue where
  key : String
  parentKey : String
  epicKey : String
  status : String
  statusCategory : String
deriving DecidableEq, Repr

/-- The response of `jira_search_jql` for the query
`"{parent_link_field}" = current AND statuscategory in ("In Progress")`
against the database `db`: the keys of the issues whose parent link is
`current` and whose status category is "In Progress". -/
def dbSearchInProgress (db : List Issue) (current : String) : List String :=
  (db.filter (fun i => i.parentKey = current ∧ i.statusCategory = "In Progress")).map
    (fun i => i.key)

/-- The child query of `gather_data` in `jira_sentiment.py`: issues whose
parent link or epic link equals the top key, restricted by the JQL clause
`statusCategory in ("In Progress")`. -/
def child_issues_query (db : List Issue) (topKey : String) : List Issue :=
  db.filter (fun i => (i.parentKey = topKey ∨ i.epicKey = topKey) ∧
    i.statusCategory = "In Progress")

/-- Modelled from the claim wording for comparison: a resolver that checks
the candidate names in the order they are given, returning the id of the
first field that exactly (case-insensitively) matches the earliest candidate,
and only then falls back to substring containment candidate by candidate. -/
def find_field_id_claimed (fields : List FieldDef) (target_names : List String) :
    Option String :=
  let exactFor : String → Option (Option String) := fun t =>
    match fields.find? (fun f => pyLower f.name = pyLower t) with
    | some f => some f.id
    | none => none
  let fuzzyFor : String → Option (Option String) := fun t =>
    match fields.find? (fun f => strContains (pyLower f.name) (pyLower t)) with
    | some f => some f.id
    | none => none
  match target_names.findSome? exactFor with
  | some r => r
  | none =>
    match target_names.findSome? fuzzyFor with
    | some r => r
    | none => none

/-- The claim's declarative retention predicate for the `jira_sentiment.py`
comment windowing: the creation timestamp string is present, parses, and
(with a missing timezone defaulted to UTC) denotes an instant on or after
the cutoff. -/
def retainedPerClaim (parse : String → Option PyAware) (cutoff : Int)
    (c : RawComment) : Bool :=
  let raw := JiraSentiment.createdRawOf c
  if raw = "" then false
  else
    match parse raw with
    | none => false
    | some d =>
      cutoff ≤ pyInstant (if d.tzOffsetUs = none then PyAware.mk d.naiveUs (some 0) else d)

/-- The exact-match predicate of the first `find_field_id` pass, as a test
on one field. -/
def exactMatchB (target_names : List String) (f : FieldDef) : Bool :=
  (target_names.map pyLower).contains (pyLower f.name)

/-- The substring-containment predicate of the second `find_field_id` pass,
as a test on one field. -/
def fuzzyMatchB (target_names : List String) (f : FieldDef) : Bool :=
  (target_names.map pyLower).any (fun t => strContains (pyLower f.name) t)

/-- A concrete tracker environment for the failure-isolation scenario:
every issue fetch succeeds with an in-progress issue carrying no narrative
fields, and the comment fetch fails for issue "B" only. -/
def envFailB : ExecSummary.ExecEnv :=
  ⟨fun _ => .ok ⟨some "s", some "In Progress", none, none, none, none⟩,
   fun k => if k = "B" then .error () else .ok []⟩

/-- Invariant of the breadth-first frontier: every queued key was reached in
as many `search` steps as its recorded depth, and no recorded depth exceeds
the bound. -/
def ExecSummary.FrontierOK (search : String → List String) (root : String)
    (maxDepth : Nat) (st : ExecSummary.BfsState) : Prop :=
  ∀ p ∈ st.frontier, p.1 ∈ ExecSummary.levelsUpTo search root p.2 ∧ p.2 ≤ maxDepth

/-- Invariant of the whole loop state: the frontier invariant, a duplicate-free
seen set, and `all_keys` coinciding with the seen set (both receive exactly
the same appends in the source). -/
def ExecSummary.StateOK (search : String → List String) (root : String)
    (maxDepth : Nat) (st : ExecSummary.BfsState) : Prop :=
  ExecSummary.FrontierOK search root maxDepth st ∧ st.seen.Nodup ∧
    st.all_keys = st.seen

/-- Termination measure for the breadth-first loop: the number of keys of the
universe `U` not yet seen, plus the frontier length. Every loop iteration
strictly decreases it. -/
def ExecSummary.bfsMeasure (U : List String) (st : ExecSummary.BfsState) : Nat :=
  (U.filter (fun k => decide (k ∉ st.seen))).length + st.frontier.length

/-- A single analysis row labelled "negative" (all other entries inert). -/
def negOnlyRow : ExecSummary.ExecRow :=
  ⟨"K", none, none, none, "Unassigned", none, none, 0, 0, 0, -(1/2 : Rat),
   "negative", false⟩

/-- The ambient `datetime.utcnow()` instant of the comment-windowing
scenario: 2025-01-17T10:00:00 UTC as microseconds since the epoch. -/
def c6now : Int := ExecSummary.naiveToMicros ⟨2025, 1, 17, 10, 0, 0, 0⟩

/-- A comment created at wall-clock 2025-01-10T12:00:00 with UTC offset
+05:00, i.e. at the instant 2025-01-10T07:00:00 UTC. -/
def c6comment : RawComment :=
  ⟨some "2025-01-10T12:00:00.000+0500", none, some "late status"⟩

/-- A comment service that returns one comment whenever more than 50 are
requested and nothing otherwise; it agrees with the empty service on every
request the pagination loop can actually make. -/
def envBig : Int → Int → List Nat := fun _ m => if 50 < m then [0] else []

/-- A one-issue database: "B" is an in-progress child of "A". -/
def dbWitness : List Issue := [⟨"B", "A", "", "In Progress", "In Progress"⟩]



/-- C1: for every NarrativeBundle, the per-issue compound score is the
0.6/0.4-weighted average of the status-summary and comments compound scores,
renormalized by the sum of the weights actually used: both texts non-blank
gives (0.6*s_status + 0.4*s_comments)/1.0, exactly one non-blank gives that
score unchanged, and two empty or blank texts give exactly 0.0. -/
theorem C1_weighted_combination (scorer : String → Rat) (status_summary : Option String)
    (comments_text : String) :
    JiraSentiment.analyze_issue_sentiment scorer status_summary comments_text =
      match status_summary with
      | some s =>
        if s ≠ "" ∧ pyHasContent s then
          if comments_text ≠ "" ∧ pyHasContent comments_text then
            (0.6 * scorer s + 0.4 * scorer comments_text) / 1
          else scorer s
        else if comments_text ≠ "" ∧ pyHasContent comments_text then scorer comments_text
        else 0
      | none =>
        if comments_text ≠ "" ∧ pyHasContent comments_text then scorer comments_text
        else 0 := by
  have h04 : (0.4 : Rat) ≠ 0 := by norm_num
  have h06 : (0.6 : Rat) ≠ 0 := by norm_num
  cases status_summary with
  | none =>
    by_cases hc : comments_text ≠ "" ∧ pyHasContent comments_text
    · simp only [JiraSentiment.analyze_issue_sentiment, if_pos hc]
      simp [h04]
    · simp [JiraSentiment.analyze_issue_sentiment, if_neg hc]
  | some s =>
    by_cases hs : s ≠ "" ∧ pyHasContent s
    · by_cases hc : comments_text ≠ "" ∧ pyHasContent comments_text
      · simp only [JiraSentiment.analyze_issue_sentiment, if_pos hs, if_pos hc]
        simp
        norm_num
        ring
      · simp only [JiraSentiment.analyze_issue_sentiment, if_pos hs, if_neg hc]
        simp [h06]
    · by_cases hc : comments_text ≠ "" ∧ pyHasContent comments_text
      · simp only [JiraSentiment.analyze_issue_sentiment, if_neg hs, if_pos hc]
        simp [h04]
      · simp [JiraSentiment.analyze_issue_sentiment, if_neg hs, if_neg hc]

/-- Case analysis of the `jira_sentiment.py` label mapping: strict thresholds,
boundaries labelled neutral. -/
theorem jiraLabelSpec (c : Rat) :
    (JiraSentiment.label_from_compound c = "positive" ↔ 0.05 < c) ∧
    (JiraSentiment.label_from_compound c = "negative" ↔ c < -0.05) ∧
    (JiraSentiment.label_from_compound c = "neutral" ↔ -0.05 ≤ c ∧ c ≤ 0.05) := by
  unfold JiraSentiment.label_from_compound
  split_ifs with h1 h2
  · refine ⟨⟨fun _ => h1, fun _ => rfl⟩, ⟨fun h => absurd h (by decide), fun h => ?_⟩,
      ⟨fun h => absurd h (by decide), fun h => ?_⟩⟩
    · exact absurd h1 (by linarith)
    · exact absurd h1 (by linarith [h.2])
  · refine ⟨⟨fun h => absurd h (by decide), fun h => absurd h h1⟩,
      ⟨fun _ => h2, fun _ => rfl⟩, ⟨fun h => absurd h (by decide), fun h => ?_⟩⟩
    exact absurd h2 (by linarith [h.1])
  · refine ⟨⟨fun h => absurd h (by decide), fun h => absurd h h1⟩,
      ⟨fun h => absurd h (by decide), fun h => absurd h h2⟩,
      ⟨fun _ => ⟨by linarith [not_lt.mp h2], by linarith [not_lt.mp h1]⟩, fun _ => rfl⟩⟩

/-- Case analysis of the `sentiment_exec_summary.py` label mapping: inclusive
thresholds, boundaries labelled positive and negative respectively. -/
theorem execLabelSpec (c : Rat) :
    (ExecSummary.label_from_compound c = "positive" ↔ 0.2 ≤ c) ∧
    (ExecSummary.label_from_compound c = "negative" ↔ c ≤ -0.2) ∧
    (ExecSummary.label_from_compound c = "neutral" ↔ -0.2 < c ∧ c < 0.2) := by
  unfold ExecSummary.label_from_compound
  split_ifs with h1 h2
  · refine ⟨⟨fun _ => h1, fun _ => rfl⟩, ⟨fun h => absurd h (by decide), fun h => ?_⟩,
      ⟨fun h => absurd h (by decide), fun h => ?_⟩⟩
    · exact absurd h1 (by linarith)
    · exact absurd h1 (by linarith [h.2])
  · refine ⟨⟨fun h => absurd h (by decide), fun h => absurd h h1⟩,
      ⟨fun _ => h2, fun _ => rfl⟩, ⟨fun h => absurd h (by decide), fun h => ?_⟩⟩
    exact absurd h2 (by linarith [h.1])
  · refine ⟨⟨fun h => absurd h (by decide), fun h => absurd h h1⟩,
      ⟨fun h => absurd h (by decide), fun h => absurd h h2⟩,
      ⟨fun _ => ⟨by linarith [not_le.mp h2], by linarith [not_le.mp h1]⟩, fun _ => rfl⟩⟩

/-- C2 (amended): the `jira_sentiment.py` mapping (thresholds 0.05 and
-0.05) labels positive exactly strictly above the upper threshold, negative
exactly strictly below the lower one, and neutral on the closed band in
between, boundaries included, as the claim states; the
`sentiment_exec_summary.py` mapping (thresholds 0.2 and -0.2) instead uses
inclusive comparisons, labelling the boundary values positive and negative
and reserving neutral for the open band. -/
theorem C2_label_thresholds (c : Rat) :
    (JiraSentiment.label_from_compound c = "positive" ↔ 0.05 < c) ∧
    (JiraSentiment.label_from_compound c = "negative" ↔ c < -0.05) ∧
    (JiraSentiment.label_from_compound c = "neutral" ↔ -0.05 ≤ c ∧ c ≤ 0.05) ∧
    (ExecSummary.label_from_compound c = "positive" ↔ 0.2 ≤ c) ∧
    (ExecSummary.label_from_compound c = "negative" ↔ c ≤ -0.2) ∧
    (ExecSummary.label_from_compound c = "neutral" ↔ -0.2 < c ∧ c < 0.2) :=
  ⟨(jiraLabelSpec c).1, (jiraLabelSpec c).2.1, (jiraLabelSpec c).2.2,
   (execLabelSpec c).1, (execLabelSpec c).2.1, (execLabelSpec c).2.2⟩

/-- C2 counterexample: at the boundary value 0.2 the
`sentiment_exec_summary.py` mapping returns "positive", while the claim says
a compound equal to the upper threshold is labelled neutral. -/
theorem C2_counterexample :
    ExecSummary.label_from_compound 0.2 = "positive" ∧
    ("positive" : String) ≠ "neutral" := by
  constructor
  · unfold ExecSummary.label_from_compound
    rw [if_pos (by norm_num)]
  · decide

/-- C10: the word "issue" is itself a risk marker, so the lexical signal
extractor flags any text containing "issue" in any letter case as risk
language. -/
theorem C10_issue_marker :
    "issue" ∈ JiraSentiment.risk_markers ∧
    ∀ text : String, strContains (pyLower text) "issue" = true →
      (JiraSentiment.extract_signals text).risk_flag = true := by
  constructor
  · simp [JiraSentiment.risk_markers]
  · intro text h
    simp only [JiraSentiment.extract_signals]
    exact List.any_eq_true.mpr ⟨"issue", by simp [JiraSentiment.risk_markers], h⟩

/-- C10 witness: a text mentioning "ISSUE" is flagged. -/
theorem C10_witness :
    (JiraSentiment.extract_signals "There is an ISSUE here").risk_flag = true :=
  C10_issue_marker.2 "There is an ISSUE here" (by decide)

/-- The first `find_field_id` pass returns the first field (in field-list
order) passing the exact-match test. -/
theorem exactPass_eq_find (target_names : List String) (fields : List FieldDef) :
    JiraSentiment.exactPass (target_names.map pyLower) fields =
      (fields.find? (exactMatchB target_names)).map (fun f => f.id) := by
  induction fields with
  | nil => rfl
  | cons f rest ih =>
    simp only [JiraSentiment.exactPass, List.find?]
    by_cases h : (target_names.map pyLower).contains (pyLower f.name)
    · rw [if_pos h]
      have hb : exactMatchB target_names f = true := h
      rw [hb]
      rfl
    · rw [if_neg h]
      have hb : exactMatchB target_names f = false := by
        simpa [exactMatchB] using h
      rw [hb]
      exact ih

/-- The second `find_field_id` pass returns the first field (in field-list
order) passing the substring-containment test. -/
theorem fuzzyPass_eq_find (target_names : List String) (fields : List FieldDef) :
    JiraSentiment.fuzzyPass (target_names.map pyLower) fields =
      (fields.find? (fuzzyMatchB target_names)).map (fun f => f.id) := by
  induction fields with
  | nil => rfl
  | cons f rest ih =>
    simp only [JiraSentiment.fuzzyPass, List.find?]
    by_cases h : (target_names.map pyLower).any (fun t => strContains (pyLower f.name) t)
    · rw [if_pos h]
      have hb : fuzzyMatchB target_names f = true := h
      rw [hb]
      rfl
    · rw [if_neg h]
      have hb : fuzzyMatchB target_names f = false := by
        simpa [fuzzyMatchB] using h
      rw [hb]
      exact ih

/-- When `exactPass` returns, it returned the id of a field in the list that
passes the membership test. -/
theorem exactPass_mem {ts : List String} :
    ∀ {fields : List FieldDef} {r : Option String},
      JiraSentiment.exactPass ts fields = some r →
      ∃ f ∈ fields, r = f.id ∧ ts.contains (pyLower f.name) = true := by
  intro fields
  induction fields with
  | nil => intro r h; exact absurd h (by simp [JiraSentiment.exactPass])
  | cons f rest ih =>
    intro r h
    simp only [JiraSentiment.exactPass] at h
    by_cases hc : ts.contains (pyLower f.name)
    · rw [if_pos hc] at h
      exact ⟨f, List.mem_cons_self f rest, (Option.some_injective _ h).symm, hc⟩
    · rw [if_neg hc] at h
      obtain ⟨g, hg, hr, hcg⟩ := ih h
      exact ⟨g, List.mem_cons_of_mem f hg, hr, hcg⟩

/-- C3 (amended): the resolver in `jira_sentiment.py` scans the field list in
order: the first pass returns the id of the first field whose lowercased
name exactly equals any candidate (the candidates are checked as a set, so
their given order never influences the result); only if no field
exact-matches does the second pass return the id of the first field whose
lowercased name contains some candidate as a substring; `None` (not an
error) results when nothing matches. The companion resolver
`find_field_id_by_name` in `sentiment_exec_summary.py` returns only exact
(case-insensitive) matches and has no substring-containment fallback
result. -/
theorem C3_resolver_order (fields : List FieldDef) (target_names : List String) :
    (JiraSentiment.find_field_id fields target_names =
      match fields.find? (exactMatchB target_names) with
      | some f => f.id
      | none =>
        match fields.find? (fuzzyMatchB target_names) with
        | some f => f.id
        | none => none) ∧
    (∀ (name fid : String),
      ExecSummary.find_field_id_by_name fields name = some fid →
      ∃ f ∈ fields, pyLower f.name = pyLower name ∧ f.id = some fid) := by
  constructor
  · unfold JiraSentiment.find_field_id
    simp only [exactPass_eq_find, fuzzyPass_eq_find]
    cases fields.find? (exactMatchB target_names) with
    | some f => rfl
    | none =>
      cases fields.find? (fuzzyMatchB target_names) with
      | some f => rfl
      | none => rfl
  · intro name fid h
    unfold ExecSummary.find_field_id_by_name at h
    rcases hp : JiraSentiment.exactPass [pyLower name]
        (ExecSummary.jira_search_fields fields name 500) with _ | r
    · rw [hp] at h; exact absurd h (by simp)
    · rw [hp] at h
      simp only at h
      obtain ⟨f, hf, hr, hcont⟩ := exactPass_mem hp
      refine ⟨f, ?_, ?_, by rw [← hr, h]⟩
      · have hsub : ExecSummary.jira_search_fields fields name 500 ⊆ fields := by
          unfold ExecSummary.jira_search_fields
          split
          · exact (List.take_sublist _ _).subset
          · exact fun x hx =>
              List.mem_of_mem_filter ((List.take_sublist _ _).subset hx)
        exact hsub hf
      · have hmem : pyLower f.name ∈ [pyLower name] :=
          List.mem_of_elem_eq_true hcont
        simpa using hmem

/-- C3 counterexample: with fields [Epic Link ↦ f1, Parent Link ↦ f2] and
candidates ["Parent Link", "Epic Link"], the code returns f1 (the first
matching FIELD), while a resolver that checks the candidate names in their
given order, as the claim describes, would return f2 (the field matching the
first candidate). -/
theorem C3_counterexample :
    JiraSentiment.find_field_id
        [⟨some "f1", "Epic Link"⟩, ⟨some "f2", "Parent Link"⟩]
        ["Parent Link", "Epic Link"] = some "f1" ∧
    find_field_id_claimed
        [⟨some "f1", "Epic Link"⟩, ⟨some "f2", "Parent Link"⟩]
        ["Parent Link", "Epic Link"] = some "f2" ∧
    some "f1" ≠ some "f2" := by
  refine ⟨by decide, by decide, by decide⟩

/-- C3 witness: the exec-summary resolver result is always an exact match,
instantiated on a one-field list. -/
theorem C3_witness :
    ∃ f ∈ [FieldDef.mk (some "customfield_10") "Parent Link"],
      pyLower f.name = pyLower "Parent Link" ∧ f.id = some "customfield_10" :=
  (C3_resolver_order [FieldDef.mk (some "customfield_10") "Parent Link"]
      ["Parent Link"]).2 "Parent Link" "customfield_10" (by decide)

/-- C8 (amended): the overall trend of `build_exec_summary` is "positive"
whenever the positive count ties for the maximum, otherwise "neutral"
whenever the neutral count ties for the maximum; when the negative count is
the unique maximum the selected trend is the string "mixed", not "negative",
so the trend ranges over positive, neutral and mixed. -/
theorem C8_trend_selection (analyses : List ExecSummary.ExecRow) :
    (ExecSummary.execTrend analyses =
      if ExecSummary.posCount analyses ≥
          max (ExecSummary.negCount analyses) (ExecSummary.neuCount analyses)
      then "positive"
      else if ExecSummary.neuCount analyses ≥
          max (ExecSummary.posCount analyses) (ExecSummary.negCount analyses)
      then "neutral"
      else "mixed") ∧
    (ExecSummary.posCount analyses < ExecSummary.negCount analyses →
      ExecSummary.neuCount analyses < ExecSummary.negCount analyses →
      ExecSummary.execTrend analyses = "mixed") := by
  constructor
  · rfl
  · intro hpos hneu
    unfold ExecSummary.execTrend
    rw [if_neg, if_neg]
    · show ¬ ExecSummary.neuCount analyses ≥ max _ _
      intro h
      exact absurd (le_trans (le_max_right _ _) h) (not_le.mpr hneu)
    · show ¬ ExecSummary.posCount analyses ≥ max _ _
      intro h
      exact absurd (le_trans (le_max_left _ _) h) (not_le.mpr hpos)

/-- C8 counterexample: with a single negative label the negative count is the
unique maximum, yet the selected trend is "mixed", which is not "negative"
and not one of positive, neutral, negative at all. -/
theorem C8_counterexample :
    ExecSummary.execTrend [negOnlyRow] = "mixed" ∧
    ("mixed" : String) ≠ "negative" ∧ ("mixed" : String) ≠ "positive" ∧
    ("mixed" : String) ≠ "neutral" := by
  refine ⟨rfl, by decide, by decide, by decide⟩

/-- C8 witness: the negative-unique-maximum branch applied to the concrete
one-row list. -/
theorem C8_witness : ExecSummary.execTrend [negOnlyRow] = "mixed" :=
  (C8_trend_selection [negOnlyRow]).2 (by decide) (by decide)

/-- The windowing loop of `gather_data` keeps exactly the comments satisfying
the claim's retention predicate, in order, mapped to their body strings. -/
theorem windowLoop_eq_filter (parse : String → Option PyAware) (cutoff : Int)
    (comments : List RawComment) :
    JiraSentiment.windowLoop parse cutoff comments =
      (comments.filter (retainedPerClaim parse cutoff)).map (fun c => c.body.getD "") := by
  induction comments with
  | nil => rfl
  | cons c rest ih =>
    simp only [JiraSentiment.windowLoop, List.filter]
    by_cases hraw : JiraSentiment.createdRawOf c = ""
    · have hb : retainedPerClaim parse cutoff c = false := by
        unfold retainedPerClaim
        rw [if_pos hraw]
      rw [if_pos hraw, hb]
      exact ih
    · rw [if_neg hraw]
      rcases hp : parse (JiraSentiment.createdRawOf c) with _ | d
      · have hb : retainedPerClaim parse cutoff c = false := by
          unfold retainedPerClaim
          rw [if_neg hraw, hp]
        simp only [hp, hb]
        exact ih
      · by_cases hcut : cutoff ≤ pyInstant
            (if d.tzOffsetUs = none then PyAware.mk d.naiveUs (some 0) else d)
        · have hb : retainedPerClaim parse cutoff c = true := by
            unfold retainedPerClaim
            rw [if_neg hraw, hp]
            exact decide_eq_true hcut
          simp only [hp, hb]
          rw [if_pos hcut]
          simp [ih]
        · have hb : retainedPerClaim parse cutoff c = false := by
            unfold retainedPerClaim
            rw [if_neg hraw, hp]
            exact decide_eq_false hcut
          simp only [hp, hb]
          rw [if_neg hcut]
          exact ih

/-- C6 (amended): in `jira_sentiment.py`, for every comment list and every
parser, a comment's body is kept exactly when its creation string is
present, parses, and — with a missing timezone defaulted to UTC — denotes an
instant at or after `now - windowDays` (boundary inclusive); unparsable or
absent timestamps are silently discarded; the retained bodies are joined
with newline separators in retrieval order. (In
`sentiment_exec_summary.py`'s `filter_comments_last_days`, by contrast, the
parser truncates the string to its first 23 characters and reads the
wall-clock fields as UTC, so a timezone-aware timestamp's offset is ignored
and a comment can be retained although its actual instant is before the
cutoff; see the counterexample.) -/
theorem C6_windowing (parse : String → Option PyAware) (now days : Int)
    (comments : List RawComment) :
    JiraSentiment.comments_text_of parse now days comments =
      String.intercalate "\n"
        ((comments.filter (retainedPerClaim parse (now - days * usPerDay))).map
          (fun c => c.body.getD "")) := by
  unfold JiraSentiment.comments_text_of
  rw [windowLoop_eq_filter]

set_option maxRecDepth 10000 in
/-- C6 counterexample: the comment created at `2025-01-10T12:00:00.000+0500`
denotes the instant 2025-01-10T07:00:00 UTC, which is before the cutoff
`2025-01-17T10:00:00Z - 7 days` = 2025-01-10T10:00:00 UTC, so the claim says
it is discarded; `filter_comments_last_days` nevertheless retains it,
because its parser truncates the offset away and treats the wall-clock
12:00 as UTC. -/
theorem C6_counterexample :
    ExecSummary.filter_comments_last_days c6now [c6comment] 7 = [c6comment] ∧
    pyInstant ⟨ExecSummary.naiveToMicros ⟨2025, 1, 10, 12, 0, 0, 0⟩,
        some (5 * 3600 * 1000000)⟩ < c6now - 7 * usPerDay := by
  exact ⟨by decide, by decide⟩

/-- C7 (amended): in `jira_sentiment.py`, a failing comment fetch is handled
inside the per-issue loop exactly like a successful fetch of zero comments —
the failing issue keeps an empty comments text and every other issue is
processed unchanged. In `sentiment_exec_summary.py`, by contrast, a
per-issue failure (the comment fetch included, since `analyze_issue` has no
handler) causes that issue's row to be omitted from the results entirely,
while the remaining issues continue as if the failing key were absent from
the key list. -/
theorem C7_failure_isolation :
    (∀ (fetchComments : String → Except Unit (List RawComment))
       (parse : String → Option PyAware) (now days : Int)
       (statusTextOf : String → String) (keys : List String),
       JiraSentiment.gatherDetailsLoop fetchComments parse now days statusTextOf keys =
         JiraSentiment.gatherDetailsLoop
           (fun k => match fetchComments k with
             | .error _ => Except.ok []
             | .ok cs => Except.ok cs)
           parse now days statusTextOf keys) ∧
    (∀ (analyze : String → Except Unit ExecSummary.ExecRow) (rootKey badKey : String)
       (keys : List String), analyze badKey = .error () →
       ExecSummary.mainAnalysesLoop analyze rootKey keys =
         ExecSummary.mainAnalysesLoop analyze rootKey
           (keys.filter (fun k => k ≠ badKey))) := by
  constructor
  · intro fetchComments parse now days statusTextOf keys
    induction keys with
    | nil => rfl
    | cons k rest ih =>
      simp only [JiraSentiment.gatherDetailsLoop]
      rcases hf : fetchComments k with e | cs
      · simp only [hf]
        rw [ih]
      · simp only [hf]
        rw [ih]
  · intro analyze rootKey badKey keys hbad
    induction keys with
    | nil => rfl
    | cons k rest ih =>
      by_cases hk : k = badKey
      · subst hk
        simp only [ExecSummary.mainAnalysesLoop, hbad, List.filter]
        simpa using ih
      · simp only [ExecSummary.mainAnalysesLoop, List.filter]
        have : (decide (k ≠ badKey)) = true := by
          exact decide_eq_true hk
        rw [this]
        rcases ha : analyze k with e | a
      

        · simpa only [ExecSummary.mainAnalysesLoop, ha] using ih
        · simp only [ExecSummary.mainAnalysesLoop, ha]
          by_cases hroot : k = rootKey ∨ a.status = some "In Progress"
          · rw [if_pos hroot, if_pos hroot, ih]
          · rw [if_neg hroot, if_neg hroot, ih]

/-- C7 witness: the exec-summary isolation equation applied to the concrete
environment in which only the comment fetch of "B" fails. -/
theorem C7_witness :
    ExecSummary.mainAnalysesLoop
        (ExecSummary.analyze_issue envFailB false false 7 (fun _ => 0) 0)
        "ROOT" ["ROOT", "B", "C"] =
      ExecSummary.mainAnalysesLoop
        (ExecSummary.analyze_issue envFailB false false 7 (fun _ => 0) 0)
        "ROOT" (["ROOT", "B", "C"].filter (fun k => k ≠ "B")) :=
  C7_failure_isolation.2
    (ExecSummary.analyze_issue envFailB false false 7 (fun _ => 0) 0)
    "ROOT" "B" ["ROOT", "B", "C"] (by rfl)

/-- C7 counterexample: with the comment fetch failing for "B" only, the exec
summary run completes but its result rows are for "ROOT" and "C" alone —
issue "B" is dropped from the output, not processed as if it had no
comments, contrary to the claim. -/
theorem C7_counterexample :
    (ExecSummary.mainAnalysesLoop
        (ExecSummary.analyze_issue envFailB false false 7 (fun _ => 0) 0)
        "ROOT" ["ROOT", "B", "C"]).map (fun r => r.key) = ["ROOT", "C"] := by
  rfl

/-- The `jira_get_all_comments` loop finishes within the fuel bound: each
continuing iteration grows the result list by at least one while staying
below `maxComments`. -/
theorem jgac_run_some {α : Type} (env : Int → Int → List α) (maxComments : Int) :
    ∀ (fuel : Nat) (st : List α × Int),
      maxComments.toNat - st.1.length < fuel →
      ∃ r, ExecSummary.jgac_run env maxComments fuel st = some r := by
  intro fuel
  induction fuel with
  | zero => intro st h; omega
  | succ fuel ih =>
    intro st h
    rcases hs : ExecSummary.jgac_step env maxComments st with r | st'
    · exact ⟨r, by simp [ExecSummary.jgac_run, hs]⟩
    · have hs' := hs
      simp only [ExecSummary.jgac_step] at hs'
      by_cases hcond : (env st.2 (min 50 (maxComments - (st.1.length : Int)))).length = 0 ∨
          maxComments ≤ ((st.1 ++ env st.2 (min 50 (maxComments - (st.1.length : Int)))).length : Int)
      · rw [if_pos hcond] at hs'
        exact absurd hs' (by simp)
      · rw [if_neg hcond] at hs'
        have hst : st'.1 = st.1 ++ env st.2 (min 50 (maxComments - (st.1.length : Int))) := by
          rw [← (Sum.inr.injEq _ _).mp hs']
        push_neg at hcond
        have hne := hcond.1
        have hlt := hcond.2
        obtain ⟨r, hr⟩ := ih st' (by
          have hlen : st.1.length + 1 ≤ st'.1.length := by
            rw [hst, List.length_append]
            omega
          have hlt' : (st'.1.length : Int) < maxComments := by rw [hst]; exact hlt
          omega)
        exact ⟨r, by simp [ExecSummary.jgac_run, hs, hr]⟩

/-- The `jira_get_all_comments` loop only ever requests pages of size at most
50, so its result does not depend on what the service would answer to larger
requests. -/
theorem jgac_run_agree {α : Type} (env env' : Int → Int → List α) (maxComments : Int)
    (hagree : ∀ s m, m ≤ 50 → env s m = env' s m) :
    ∀ (fuel : Nat) (st : List α × Int),
      ExecSummary.jgac_run env maxComments fuel st =
        ExecSummary.jgac_run env' maxComments fuel st := by
  intro fuel
  induction fuel with
  | zero => intro st; rfl
  | succ fuel ih =>
    intro st
    have hpage : env st.2 (min 50 (maxComments - (st.1.length : Int))) =
        env' st.2 (min 50 (maxComments - (st.1.length : Int))) :=
      hagree _ _ (min_le_left _ _)
    have hstep : ExecSummary.jgac_step env maxComments st =
        ExecSummary.jgac_step env' maxComments st := by
      unfold ExecSummary.jgac_step
      rw [hpage]
    rw [ExecSummary.jgac_run, ExecSummary.jgac_run, hstep]
    cases ExecSummary.jgac_step env' maxComments st with
    | inl r => rfl
    | inr st' => exact ih st'

/-- C9 (amended): `jira_get_all_comments` in `sentiment_exec_summary.py`
terminates for every family of service responses: it requests pages of size
at most 50 (its result is unchanged under any modification of the service's
answers to larger requests), stops as soon as a page comes back empty or the
collected count reaches the cap, and needs at most `max_comments + 1`
iterations. (`JiraClient.get_comments` in `jira_sentiment.py`, by contrast,
stops on `start_at + maxResults >= total`, not on short pages, and can loop
forever on a service that keeps reporting more results while returning empty
pages; see the counterexample.) -/
theorem C9_pagination (α : Type) (env env' : Int → Int → List α) (maxComments : Int) :
    (∃ r, ExecSummary.jira_get_all_comments env maxComments = some r) ∧
    ((∀ s m, m ≤ 50 → env s m = env' s m) →
      ExecSummary.jira_get_all_comments env maxComments =
        ExecSummary.jira_get_all_comments env' maxComments) := by
  constructor
  · exact jgac_run_some env maxComments (maxComments.toNat + 1) ([], 0) (by simp)
  · intro hagree
    exact jgac_run_agree env env' maxComments hagree _ _

/-- C9 witness: the termination and page-size-cap statements applied to a
concrete pair of services that differ only on requests larger than 50. -/
theorem C9_witness :
    (∃ r, ExecSummary.jira_get_all_comments (fun _ _ => ([] : List Nat)) 200 = some r) ∧
    ExecSummary.jira_get_all_comments envBig 200 =
      ExecSummary.jira_get_all_comments (fun _ _ => ([] : List Nat)) 200 :=
  ⟨(C9_pagination Nat (fun _ _ => []) (fun _ _ => []) 200).1,
   (C9_pagination Nat envBig (fun _ _ => []) 200).2
     (fun s m h => by
       show (if 50 < m then [0] else []) = []
       rw [if_neg (not_lt.mpr h)])⟩

/-- C9 counterexample: against a service that reports `total = 500` while
returning empty pages (each page thus shorter than requested),
`JiraClient.get_comments` with `limit = 200` never finishes: 50 iterations
of fuel are exhausted, and the loop state reached after three iterations
(`start_at = 200`, nothing collected) steps to itself forever. The claim's
universal termination and its stop-early-on-short-page behaviour both fail
here. -/
theorem C9_counterexample :
    JiraSentiment.get_comments_run stuckPages 200 50 ⟨[], 0⟩ = none ∧
    JiraSentiment.get_comments_step stuckPages 200 ⟨[], 200⟩ =
      Sum.inr ⟨[], 200⟩ := by
  exact ⟨rfl, rfl⟩

/-- The reachable-key universe grows with the step bound. -/
theorem mem_levelsUpTo_mono (search : String → List String) (root : String) :
    ∀ {n m : Nat}, n ≤ m → ∀ {k : String},
      k ∈ ExecSummary.levelsUpTo search root n → k ∈ ExecSummary.levelsUpTo search root m := by
  intro n m hnm
  induction m with
  | zero =>
    intro k hk
    have : n = 0 := Nat.le_zero.mp hnm
    rwa [this] at hk
  | succ m ih =>
    intro k hk
    rcases Nat.lt_or_ge n (m + 1) with hlt | hge
    · have hnm' : n ≤ m := Nat.lt_succ_iff.mp hlt
      have hkm : k ∈ ExecSummary.levelsUpTo search root m := ih hnm' hk
      simp only [ExecSummary.levelsUpTo, List.mem_dedup, List.mem_append]
      exact Or.inl hkm
    · have : n = m + 1 := Nat.le_antisymm hnm hge
      rwa [this] at hk

/-- A key one `search` step beyond a reachable key is reachable with one more
step. -/
theorem mem_levelsUpTo_step (search : String → List String) (root : String)
    {k k' : String} {n : Nat} (hk : k ∈ ExecSummary.levelsUpTo search root n)
    (hk' : k' ∈ search k) : k' ∈ ExecSummary.levelsUpTo search root (n + 1) := by
  simp only [ExecSummary.levelsUpTo, List.mem_dedup, List.mem_append]
  exact Or.inr (List.mem_flatMap.mpr ⟨k, hk, hk'⟩)

/-- Extending the seen set by a key outside `U` does not change how many
elements of `U` are unseen. -/
theorem filter_unseen_append_of_not_mem {U seen : List String} {k : String}
    (hk : k ∉ U) :
    (U.filter (fun x => decide (x ∉ seen ++ [k]))).length =
      (U.filter (fun x => decide (x ∉ seen))).length := by
  induction U with
  | nil => rfl
  | cons u rest ih =>
    have hku : u ≠ k := fun h => hk (h ▸ List.mem_cons_self u rest)
    have hrest : k ∉ rest := fun h => hk (List.mem_cons_of_mem u h)
    have heq : (decide (u ∉ seen ++ [k])) = (decide (u ∉ seen)) := by
      apply decide_eq_decide.mpr
      simp [List.mem_append, hku]
    simp only [List.filter_cons, heq]
    split
    · simp only [List.length_cons]
      rw [ih hrest]
    · exact ih hrest

/-- Extending the seen set by an unseen key of the duplicate-free universe
`U` decreases the number of unseen elements of `U` by exactly one. -/
theorem filter_unseen_append_of_mem {U : List String} (hU : U.Nodup) :
    ∀ {seen : List String} {k : String}, k ∈ U → k ∉ seen →
      (U.filter (fun x => decide (x ∉ seen ++ [k]))).length + 1 =
        (U.filter (fun x => decide (x ∉ seen))).length := by
  induction U with
  | nil => intro seen k hk; exact absurd hk (List.not_mem_nil k)
  | cons u rest ih =>
    intro seen k hkU hks
    have hu : u ∉ rest := (List.nodup_cons.mp hU).1
    have hrest : rest.Nodup := (List.nodup_cons.mp hU).2
    by_cases hek : k = u
    · subst hek
      have h1 : (decide (k ∉ seen ++ [k])) = false :=
        decide_eq_false (fun hno => hno (List.mem_append_right _ (List.mem_singleton_self k)))
      have h2 : (decide (k ∉ seen)) = true := decide_eq_true hks
      simp only [List.filter_cons, h1, h2]
      rw [if_neg (by simp : ¬(false = true)), if_pos trivial]
      simp only [List.length_cons]
      rw [filter_unseen_append_of_not_mem hu]
    · have hkrest : k ∈ rest := by
        rcases List.mem_cons.mp hkU with h | h
        · exact absurd h hek
        · exact h
      have hne : u ≠ k := fun h => hek h.symm
      have heq : (decide (u ∉ seen ++ [k])) = (decide (u ∉ seen)) := by
        apply decide_eq_decide.mpr
        simp [List.mem_append, hne]
      have hrec : (List.filter (fun x => decide (x ∉ seen ++ [k])) rest).length + 1 =
          (List.filter (fun x => decide (x ∉ seen)) rest).length :=
        ih hrest hkrest hks
      by_cases hu2 : u ∈ seen
      · have hd : (decide (u ∉ seen)) = false := decide_eq_false (fun hno => hno hu2)
        simp only [List.filter_cons, heq, hd]
        rw [if_neg (by simp : ¬(false = true)), if_neg (by simp : ¬(false = true))]
        exact hrec
      · have hd : (decide (u ∉ seen)) = true := decide_eq_true hu2
        simp only [List.filter_cons, heq, hd]
        rw [if_pos trivial, if_pos trivial]
        simp only [List.length_cons]
        omega

/-- Enqueueing the keys returned by one child query preserves the loop
invariant and never increases the termination measure: each genuinely new
key moves one element of the universe from unseen to seen while adding one
frontier entry. -/
theorem enqueueAll_ok (search : String → List String) (root : String) (maxDepth : Nat)
    (U : List String) (hU : U.Nodup) :
    ∀ (ks : List String) (st : ExecSummary.BfsState) (d1 : Nat),
      ExecSummary.StateOK search root maxDepth st →
      (∀ k ∈ ks, k ∈ ExecSummary.levelsUpTo search root d1) →
      d1 ≤ maxDepth →
      (∀ k ∈ ks, k ∈ U) →
      ExecSummary.StateOK search root maxDepth (ExecSummary.enqueueAll st d1 ks) ∧
        ExecSummary.bfsMeasure U (ExecSummary.enqueueAll st d1 ks) ≤
          ExecSummary.bfsMeasure U st := by
  intro ks
  induction ks with
  | nil => intro st d1 hok _ _ _; exact ⟨hok, le_refl _⟩
  | cons k ks ih =>
    intro st d1 hok hlev hd hUm
    simp only [ExecSummary.enqueueAll]
    by_cases hcond : k ≠ "" ∧ k ∉ st.seen
    · rw [if_pos hcond]
      have hok' : ExecSummary.StateOK search root maxDepth
          ⟨st.seen ++ [k], st.frontier ++ [(k, d1)], st.all_keys ++ [k]⟩ := by
        refine ⟨?_, ?_, ?_⟩
        · intro p hp
          rcases List.mem_append.mp hp with hpold | hpnew
          · exact hok.1 p hpold
          · have : p = (k, d1) := List.mem_singleton.mp hpnew
            subst this
            exact ⟨hlev k (List.mem_cons_self k ks), hd⟩
        · exact List.Nodup.append hok.2.1 (List.nodup_singleton k)
            (fun a ha hb => hcond.2 ((List.mem_singleton.mp hb) ▸ ha))
        · rw [hok.2.2]
      have hmeas : ExecSummary.bfsMeasure U
          ⟨st.seen ++ [k], st.frontier ++ [(k, d1)], st.all_keys ++ [k]⟩ =
            ExecSummary.bfsMeasure U st := by
        have hcount : (U.filter (fun x => decide (x ∉ st.seen ++ [k]))).length + 1 =
            (U.filter (fun x => decide (x ∉ st.seen))).length :=
          filter_unseen_append_of_mem hU (hUm k (List.mem_cons_self k ks)) hcond.2
        simp only [ExecSummary.bfsMeasure, List.length_append, List.length_singleton]
        omega
      obtain ⟨hok'', hm⟩ := ih _ d1 hok'
        (fun x hx => hlev x (List.mem_cons_of_mem k hx)) hd
        (fun x hx => hUm x (List.mem_cons_of_mem k hx))
      exact ⟨hok'', le_trans hm (le_of_eq hmeas)⟩
    · rw [if_neg hcond]
      exact ih st d1 hok (fun x hx => hlev x (List.mem_cons_of_mem k hx)) hd
        (fun x hx => hUm x (List.mem_cons_of_mem k hx))

/-- One iteration of the breadth-first loop on a non-empty frontier
preserves the invariant and strictly decreases the measure. -/
theorem bfsStep_ok (search : String → List String) (root : String) (maxDepth : Nat)
    (st : ExecSummary.BfsState)
    (hok : ExecSummary.StateOK search root maxDepth st)
    (current : String) (depth : Nat) (rest : List (String × Nat))
    (hf : st.frontier = (current, depth) :: rest) :
    ∃ st', ExecSummary.bfsStep search maxDepth st = some st' ∧
      ExecSummary.StateOK search root maxDepth st' ∧
      ExecSummary.bfsMeasure ((ExecSummary.levelsUpTo search root maxDepth).dedup) st' <
        ExecSummary.bfsMeasure ((ExecSummary.levelsUpTo search root maxDepth).dedup) st := by
  have hokMid : ExecSummary.StateOK search root maxDepth ⟨st.seen, rest, st.all_keys⟩ :=
    ⟨fun p hp => hok.1 p (hf ▸ List.mem_cons_of_mem _ hp), hok.2.1, hok.2.2⟩
  have hmeasMid : ExecSummary.bfsMeasure ((ExecSummary.levelsUpTo search root maxDepth).dedup)
      ⟨st.seen, rest, st.all_keys⟩ <
        ExecSummary.bfsMeasure ((ExecSummary.levelsUpTo search root maxDepth).dedup) st := by
    simp only [ExecSummary.bfsMeasure, hf, List.length_cons]
    omega
  by_cases hd : maxDepth ≤ depth
  · refine ⟨⟨st.seen, rest, st.all_keys⟩, ?_, hokMid, hmeasMid⟩
    simp only [ExecSummary.bfsStep, hf]
    rw [if_pos hd]
  · have hcur : current ∈ ExecSummary.levelsUpTo search root depth :=
      (hok.1 (current, depth) (hf ▸ List.mem_cons_self _ _)).1
    have hd1 : depth + 1 ≤ maxDepth := Nat.succ_le_of_lt (lt_of_not_le hd)
    have hlev : ∀ k ∈ search current, k ∈ ExecSummary.levelsUpTo search root (depth + 1) :=
      fun k hk => mem_levelsUpTo_step search root hcur hk
    have hUm : ∀ k ∈ search current,
        k ∈ (ExecSummary.levelsUpTo search root maxDepth).dedup := by
      intro k hk
      exact List.mem_dedup.mpr (mem_levelsUpTo_mono search root hd1 (hlev k hk))
    obtain ⟨hok', hm⟩ := enqueueAll_ok search root maxDepth
      ((ExecSummary.levelsUpTo search root maxDepth).dedup) (List.nodup_dedup _)
      (search current) ⟨st.seen, rest, st.all_keys⟩ (depth + 1) hokMid hlev hd1 hUm
    refine ⟨_, ?_, hok', lt_of_le_of_lt hm hmeasMid⟩
    simp only [ExecSummary.bfsStep, hf]
    rw [if_neg hd]

/-- Run with fuel at least the measure, the breadth-first loop preserves the
invariant and reaches an empty frontier (it terminates). -/
theorem bfsRun_ok (search : String → List String) (root : String) (maxDepth : Nat) :
    ∀ (fuel : Nat) (st : ExecSummary.BfsState),
      ExecSummary.StateOK search root maxDepth st →
      ExecSummary.bfsMeasure ((ExecSummary.levelsUpTo search root maxDepth).dedup) st ≤ fuel →
      ExecSummary.StateOK search root maxDepth
        (ExecSummary.bfsRun search maxDepth fuel st) ∧
      (ExecSummary.bfsRun search maxDepth fuel st).frontier = [] := by
  intro fuel
  induction fuel with
  | zero =>
    intro st hok hm
    have hfr : st.frontier = [] := by
      have : st.frontier.length = 0 := by
        simp only [ExecSummary.bfsMeasure] at hm
        omega
      exact List.length_eq_zero.mp this
    exact ⟨hok, hfr⟩
  | succ fuel ih =>
    intro st hok hm
    rcases hf : st.frontier with _ | ⟨⟨current, depth⟩, rest⟩
    · have hstep : ExecSummary.bfsStep search maxDepth st = none := by
        unfold ExecSummary.bfsStep
        rw [hf]
      simp only [ExecSummary.bfsRun, hstep]
      exact ⟨hok, hf⟩
    · obtain ⟨st', hstep, hok', hm'⟩ := bfsStep_ok search root maxDepth st hok
        current depth rest hf
      simp only [ExecSummary.bfsRun, hstep]
      exact ih st' hok' (by omega)

/-- C4: for every child-query function, root key and depth bound, the
breadth-first traversal returns a duplicate-free key list (a key already in
the visited set is never re-added) and terminates: the final loop state has
an empty frontier, which the loop reaches within the provided fuel. -/
theorem C4_bfs_no_dup_and_terminates (search : String → List String) (root : String)
    (maxDepth : Nat) :
    (ExecSummary.collect_in_progress_descendants search root maxDepth).Nodup ∧
    (ExecSummary.collectFinal search root maxDepth).frontier = [] := by
  have hok0 : ExecSummary.StateOK search root maxDepth (ExecSummary.bfsInit root) := by
    refine ⟨?_, List.nodup_singleton root, rfl⟩
    intro p hp
    have : p = (root, 0) := List.mem_singleton.mp hp
    subst this
    exact ⟨List.mem_singleton_self root, Nat.zero_le _⟩
  have hm0 : ExecSummary.bfsMeasure ((ExecSummary.levelsUpTo search root maxDepth).dedup)
      (ExecSummary.bfsInit root) ≤ ExecSummary.bfsFuel search root maxDepth := by
    simp only [ExecSummary.bfsMeasure, ExecSummary.bfsFuel, ExecSummary.bfsInit,
      List.length_singleton]
    have := List.length_filter_le (fun k => decide (k ∉ [root]))
      ((ExecSummary.levelsUpTo search root maxDepth).dedup)
    omega
  obtain ⟨hokf, hfr⟩ := bfsRun_ok search root maxDepth
    (ExecSummary.bfsFuel search root maxDepth) (ExecSummary.bfsInit root) hok0 hm0
  refine ⟨?_, hfr⟩
  unfold ExecSummary.collect_in_progress_descendants ExecSummary.collectFinal
  rw [hokf.2.2]
  exact hokf.2.1

/-- Keys in the accumulator after an enqueue were already there or came from
the enqueued query result. -/
theorem enqueueAll_all_keys_src :
    ∀ (ks : List String) (st : ExecSummary.BfsState) (d1 : Nat) (k : String),
      k ∈ (ExecSummary.enqueueAll st d1 ks).all_keys → k ∈ st.all_keys ∨ k ∈ ks := by
  intro ks
  induction ks with
  | nil => intro st d1 k h; exact Or.inl h
  | cons k0 ks ih =>
    intro st d1 k h
    simp only [ExecSummary.enqueueAll] at h
    by_cases hc : k0 ≠ "" ∧ k0 ∉ st.seen
    · rw [if_pos hc] at h
      rcases ih _ d1 k h with h' | h'
      · rcases List.mem_append.mp h' with h'' | h''
        · exact Or.inl h''
        · exact Or.inr (List.mem_cons.mpr (Or.inl (List.mem_singleton.mp h'')))
      · exact Or.inr (List.mem_cons_of_mem _ h')
    · rw [if_neg hc] at h
      rcases ih st d1 k h with h' | h'
      · exact Or.inl h'
      · exact Or.inr (List.mem_cons_of_mem _ h')

/-- Enqueueing never removes accumulated keys. -/
theorem enqueueAll_all_keys_sup :
    ∀ (ks : List String) (st : ExecSummary.BfsState) (d1 : Nat),
      st.all_keys ⊆ (ExecSummary.enqueueAll st d1 ks).all_keys := by
  intro ks
  induction ks with
  | nil => intro st d1; exact fun x hx => hx
  | cons k0 ks ih =>
    intro st d1
    simp only [ExecSummary.enqueueAll]
    by_cases hc : k0 ≠ "" ∧ k0 ∉ st.seen
    · rw [if_pos hc]
      exact fun x hx => ih _ d1 (List.mem_append_left _ hx)
    · rw [if_neg hc]
      exact ih st d1

/-- Every key the breadth-first loop accumulates was in the accumulator at
the start or was returned by some child query. -/
theorem bfsRun_all_keys_src (search : String → List String) (maxDepth : Nat) :
    ∀ (fuel : Nat) (st : ExecSummary.BfsState) (k : String),
      k ∈ (ExecSummary.bfsRun search maxDepth fuel st).all_keys →
      k ∈ st.all_keys ∨ ∃ c, k ∈ search c := by
  intro fuel
  induction fuel with
  | zero => intro st k h; exact Or.inl h
  | succ fuel ih =>
    intro st k h
    rcases hf : st.frontier with _ | ⟨⟨current, depth⟩, rest⟩
    · have hstep : ExecSummary.bfsStep search maxDepth st = none := by
        unfold ExecSummary.bfsStep
        rw [hf]
      simp only [ExecSummary.bfsRun, hstep] at h
      exact Or.inl h
    · by_cases hd : maxDepth ≤ depth
      · have hstep : ExecSummary.bfsStep search maxDepth st =
            some ⟨st.seen, rest, st.all_keys⟩ := by
          simp only [ExecSummary.bfsStep, hf]
          rw [if_pos hd]
        simp only [ExecSummary.bfsRun, hstep] at h
        exact ih ⟨st.seen, rest, st.all_keys⟩ k h
      · have hstep : ExecSummary.bfsStep search maxDepth st =
            some (ExecSummary.enqueueAll ⟨st.seen, rest, st.all_keys⟩ (depth + 1)
              (search current)) := by
          simp only [ExecSummary.bfsStep, hf]
          rw [if_neg hd]
        simp only [ExecSummary.bfsRun, hstep] at h
        rcases ih _ k h with h' | h'
        · rcases enqueueAll_all_keys_src (search current) _ (depth + 1) k h' with h'' | h''
          · exact Or.inl h''
          · exact Or.inr ⟨current, h''⟩
        · exact Or.inr h'

/-- The breadth-first loop never removes accumulated keys. -/
theorem bfsRun_all_keys_sup (search : String → List String) (maxDepth : Nat) :
    ∀ (fuel : Nat) (st : ExecSummary.BfsState),
      st.all_keys ⊆ (ExecSummary.bfsRun search maxDepth fuel st).all_keys := by
  intro fuel
  induction fuel with
  | zero => intro st; exact fun x hx => hx
  | succ fuel ih =>
    intro st
    rcases hf : st.frontier with _ | ⟨⟨current, depth⟩, rest⟩
    · have hstep : ExecSummary.bfsStep search maxDepth st = none := by
        unfold ExecSummary.bfsStep
        rw [hf]
      simp only [ExecSummary.bfsRun, hstep]
      exact fun x hx => hx
    · by_cases hd : maxDepth ≤ depth
      · have hstep : ExecSummary.bfsStep search maxDepth st =
            some ⟨st.seen, rest, st.all_keys⟩ := by
          simp only [ExecSummary.bfsStep, hf]
          rw [if_pos hd]
        simp only [ExecSummary.bfsRun, hstep]
        exact ih ⟨st.seen, rest, st.all_keys⟩
      · have hstep : ExecSummary.bfsStep search maxDepth st =
            some (ExecSummary.enqueueAll ⟨st.seen, rest, st.all_keys⟩ (depth + 1)
              (search current)) := by
          simp only [ExecSummary.bfsStep, hf]
          rw [if_neg hd]
        simp only [ExecSummary.bfsRun, hstep]
        exact fun x hx =>
          ih _ (enqueueAll_all_keys_sup (search current) ⟨st.seen, rest, st.all_keys⟩
            (depth + 1) hx)

/-- C5: when the child queries honour the JQL status filter (modelled by
running them against an issue database), every key in the traversal result
other than the root belongs to an issue whose status category is
"In Progress", and the root key is always in the result regardless of the
root issue's own status; likewise, every issue returned by the
`jira_sentiment.py` child query has status category "In Progress" while the
top issue is included unconditionally. -/
theorem C5_traversal_in_progress (db : List Issue) (root : String) (maxDepth : Nat) :
    root ∈ ExecSummary.collect_in_progress_descendants (dbSearchInProgress db) root maxDepth ∧
    (∀ k ∈ ExecSummary.collect_in_progress_descendants (dbSearchInProgress db) root maxDepth,
      k ≠ root → ∃ i ∈ db, i.key = k ∧ i.statusCategory = "In Progress") ∧
    (∀ i ∈ child_issues_query db root, i.statusCategory = "In Progress") := by
  refine ⟨?_, ?_, ?_⟩
  · exact bfsRun_all_keys_sup (dbSearchInProgress db) maxDepth _ (ExecSummary.bfsInit root)
      (List.mem_singleton_self root)
  · intro k hk hne
    rcases bfsRun_all_keys_src (dbSearchInProgress db) maxDepth _ (ExecSummary.bfsInit root)
        k hk with h | ⟨c, hc⟩
    · exact absurd (List.mem_singleton.mp h) hne
    · unfold dbSearchInProgress at hc
      obtain ⟨i, hi, hkey⟩ := List.mem_map.mp hc
      have hi' := List.mem_filter.mp hi
      have hprops := of_decide_eq_true hi'.2
      exact ⟨i, hi'.1, hkey, hprops.2⟩
  · intro i hi
    unfold child_issues_query at hi
    exact (of_decide_eq_true (List.mem_filter.mp hi).2).2

/-- C5 witness: with a one-issue database in which "B" is an in-progress
child of "A", the traversal from "A" contains "B", and the theorem yields
the in-progress issue behind it. -/
theorem C5_witness :
    ∃ i ∈ dbWitness, i.key = "B" ∧ i.statusCategory = "In Progress" :=
  (C5_traversal_in_progress dbWitness "A" 4).2.1 "B" (by decide) (by decide)
